import Mathlib

/-!
Verification of the periodic-state simulation accelerator of the `aoc2023`
repository, as described in its specification.  The development shallowly
embeds three source components:

* `src/day08.rs` — the loop-informed modular solver (`LinearCongruence`,
  `LoopInformation`, `LoopInformationSystem` and the CRT merge
  `solve_two_lc`);
* `src/day14.rs` — the platform tilt simulation and its cycle-accelerated
  driver `Platform::cycle`;
* `src/day21.rs` — the quadratic Newton forward-difference extrapolation
  of `part2`.

Rust `i64` values are embedded as `Int`; where two's-complement wraparound
matters (release-mode overflow semantics) an explicit `% 2^64` model is
used.  Rust `rem_euclid` is `Int.emod` (`%`), Rust truncating `/` on `i64`
is `Int.tdiv`, and Rust `usize` loop arithmetic over in-range indices is
embedded as `Nat`.
-/

/-! ### day08: linear congruences -/

/-- Embeds `struct LinearCongruence` of `src/day08.rs` (lines 215-220):
a congruence class `value (mod modulus)` together with a lower bound
`minimum` on admissible solutions. -/
structure LinearCongruence where
  value : Int
  modulus : Int
  minimum : Int
deriving DecidableEq, Repr

/-- Embeds `LinearCongruence::new` (day08.rs lines 223-230): the stored
value is reduced with `rem_euclid`, which is `Int.emod` (`%`).  The Rust
constructor also asserts `minimum >= 0`; theorems about `new` carry that
assertion as a hypothesis. -/
def LinearCongruence.new (value modulus minimum : Int) : LinearCongruence :=
  { value := value % modulus, modulus := modulus, minimum := minimum }

/-- Embeds `LinearCongruence::is_solution` (day08.rs lines 232-234):
`*n >= self.minimum && n.rem_euclid(self.modulus) == self.value`. -/
def LinearCongruence.is_solution (lc : LinearCongruence) (n : Int) : Bool :=
  decide (lc.minimum ≤ n) && decide (n % lc.modulus = lc.value)

/-- The search loop inside `LinearCongruence::find_solution` (day08.rs
lines 238-246), made total with a fuel parameter: each recursive call
models one iteration of the Rust `loop`.  `none` means the iteration
budget ran out (the Rust loop would still be running). -/
def findSolutionGo (value modulus minimum : Int) : Nat → Int → Option Int
  | 0, _ => none
  | fuel + 1, n =>
    let sol := n * modulus + value
    if minimum ≤ sol then some sol
    else findSolutionGo value modulus minimum fuel (n + 1)

/-- Embeds `LinearCongruence::find_solution` (day08.rs lines 236-247).
The Rust loop starts at `minimum / modulus` (truncating `i64` division,
`Int.tdiv`).  For any input satisfying the representation invariant the
loop returns within two iterations, so the chosen fuel is generous. -/
def LinearCongruence.find_solution (lc : LinearCongruence) : Option Int :=
  findSolutionGo lc.value lc.modulus lc.minimum (lc.minimum.toNat + 2)
    (lc.minimum.tdiv lc.modulus)

/-- Embeds the nested fn `solve_two_lc` (day08.rs lines 164-175).
`num::Integer::extended_gcd_lcm` returns the gcd, a Bézout coefficient
`x` for the two moduli, and their lcm; `Int.gcdA` is such a coefficient
(`Int.gcd_eq_gcd_ab`), and lemma `solve_two_lc_bezout_arbitrary` shows
the result does not depend on which Bézout coefficient is used.  The
Rust `/ gcd` is truncating division (`Int.tdiv`); it is exact here
because the compatibility test guarantees `gcd` divides the product's
last factor. -/
def solve_two_lc (a b : LinearCongruence) : Option LinearCongruence :=
  let g : Int := Int.gcd a.modulus b.modulus
  let l : Int := Int.lcm a.modulus b.modulus
  let x : Int := Int.gcdA a.modulus b.modulus
  if a.value % g ≠ b.value % g then none
  else
    some (LinearCongruence.new
      (a.value - (x * a.modulus * (a.value - b.value)).tdiv g)
      l
      (max a.minimum b.minimum))

/-! ### day08: loop information -/

/-- Embeds `struct LoopInformation` (day08.rs lines 199-203): the sorted
pre-loop hit offsets and the in-loop hit congruences of one track. -/
structure LoopInformation where
  statics : List Int
  dynamics : List LinearCongruence
deriving DecidableEq, Repr

/-- Embeds `LoopInformation::has_dynamic_solution` (day08.rs 206-208). -/
def LoopInformation.has_dynamic_solution (li : LoopInformation) : Bool :=
  !li.dynamics.isEmpty

/-- Embeds `LoopInformation::is_solution` (day08.rs 210-212).  The Rust
code runs `binary_search` on the sorted `statics` vector and tests
`is_ok()`; on a sorted vector that is exactly membership, embedded as
`List.contains`. -/
def LoopInformation.is_solution (li : LoopInformation) (n : Int) : Bool :=
  li.statics.contains n || li.dynamics.any (fun lc => lc.is_solution n)

/-- Embeds `struct LoopInformationSystem` (day08.rs lines 72-75). -/
structure LoopInformationSystem where
  infos : List LoopInformation
deriving DecidableEq, Repr

/-- Embeds `LoopInformationSystem::has_dynamic_solution` (day08.rs
140-142). -/
def LoopInformationSystem.has_dynamic_solution (s : LoopInformationSystem) : Bool :=
  !s.infos.isEmpty && s.infos.all LoopInformation.has_dynamic_solution

/-- Embeds `LoopInformationSystem::is_solution` (day08.rs 144-146). -/
def LoopInformationSystem.is_solution (s : LoopInformationSystem) (n : Int) : Bool :=
  !s.infos.isEmpty && s.infos.all (fun li => li.is_solution n)

/-- The merge loop of the nested fn `solve_lcs` (day08.rs lines 177-188):
`sol` starts as the first congruence and is merged with each remaining
one, failing fast when a merge is unsatisfiable. -/
def mergeAll (first : LinearCongruence) : List LinearCongruence → Option LinearCongruence
  | [] => some first
  | lc :: rest =>
    match solve_two_lc first lc with
    | some s => mergeAll s rest
    | none => none

/-- Embeds the nested fn `solve_lcs` (day08.rs lines 177-188).  The Rust
code indexes `lcs[0]` and is only called with nonempty combinations (one
congruence per track, and the system is nonempty); the empty case is
mapped to `none`.  `find_solution` is fuel-bounded in this embedding, so
its `Option` is threaded through with `bind`; under the representation
invariant it never exhausts its fuel. -/
def solve_lcs : List LinearCongruence → Option Int
  | [] => none
  | first :: rest => (mergeAll first rest).bind LinearCongruence.find_solution

/-- Embeds `itertools`' `multi_cartesian_product` as used in
`LoopInformationSystem::solve` (day08.rs line 193): all ways of choosing
one element from each list.  `solve` only applies it to a nonempty outer
list (the system is nonempty on that path). -/
def cartProd {α : Type} : List (List α) → List (List α)
  | [] => [[]]
  | l :: ls => l.flatMap (fun x => (cartProd ls).map (fun c => x :: c))

/-- Embeds `LoopInformationSystem::solve` (day08.rs lines 148-196): first
the static offsets are scanned in order with the system predicate; then,
if every track has a dynamic congruence, every combination of one dynamic
congruence per track is merged by CRT and the minimum surviving solution
is returned (`Iterator::min` is `List.min?`). -/
def LoopInformationSystem.solve (s : LoopInformationSystem) : Option Int :=
  match (s.infos.flatMap LoopInformation.statics).find? (fun n => s.is_solution n) with
  | some n => some n
  | none =>
    if !s.has_dynamic_solution then none
    else ((cartProd (s.infos.map LoopInformation.dynamics)).filterMap solve_lcs).min?

/-! ### day21: quadratic Newton extrapolation -/

/-- Embeds the Newton forward-difference extrapolation at the end of
`part2` in `src/day21.rs` (lines 79-84): from the three samples
`a, b, c` taken at period counts 0, 1, 2, extrapolate to period count
`t`.  All arithmetic is Rust `usize`, embedded as `Nat` (so `-` is
truncated subtraction and `/ 2` is natural division, exact here for
convex quadratic samples). -/
def newtonExtrapolate (a b c t : Nat) : Nat :=
  let c0 := a
  let c1 := b - a
  let double_c2 := (c - b) - c1
  c0 + c1 * (t - 0) + double_c2 * (t - 0) * (t - 1) / 2

/-- The synthetic exactly-quadratic sequence of the claim:
`f k = k0 + k1 * k + k2 * k^2` with nonnegative coefficients (the code
works in `usize`, so the sequence lives in `Nat`). -/
def quadSample (k0 k1 k2 k : Nat) : Nat :=
  k0 + k1 * k + k2 * k * k

/-! ### day08: release-mode `i64` wrapping model of `find_solution`

The source comments the search loop with
`// TODO: optimize and safeguard against overflow`: its arithmetic is
plain `i64` arithmetic, which in a release build wraps around on
overflow.  `wrap64` is two's-complement reduction of an integer into
`[-2^63, 2^63)`. -/

/-- Two's-complement wraparound of release-mode `i64` arithmetic. -/
def wrap64 (x : Int) : Int := (x + 2 ^ 63) % 2 ^ 64 - 2 ^ 63

/-- The search loop of `LinearCongruence::find_solution` (day08.rs lines
238-246) under release-mode `i64` semantics: every arithmetic operation
wraps. -/
def findSolutionI64Go (value modulus minimum : Int) : Nat → Int → Option Int
  | 0, _ => none
  | fuel + 1, n =>
    let sol := wrap64 (wrap64 (n * modulus) + value)
    if minimum ≤ sol then some sol
    else findSolutionI64Go value modulus minimum fuel (wrap64 (n + 1))

/-- `LinearCongruence::find_solution` under release-mode `i64` semantics,
with a fuel bound on the number of loop iterations. -/
def LinearCongruence.findSolutionI64 (lc : LinearCongruence) (fuel : Nat) : Option Int :=
  findSolutionI64Go lc.value lc.modulus lc.minimum fuel (lc.minimum.tdiv lc.modulus)

/-! ### day08: representation invariants -/

/-- The representation invariant of `LinearCongruence` stated by the
specification: `modulus >= 1`, `residue` reduced into `[0, modulus)`,
`minimum >= 0`. -/
def LCInv (lc : LinearCongruence) : Prop :=
  1 ≤ lc.modulus ∧ 0 ≤ lc.value ∧ lc.value < lc.modulus ∧ 0 ≤ lc.minimum

/-- The invariants `LoopInformationSystem::create` (day08.rs lines
78-138) establishes for each track: `statics` is sorted and nonnegative
(they are pre-loop step indices), every static offset precedes every
dynamic congruence's window (a pre-loop index is smaller than the first
occurrence of any looped hit), and every dynamic congruence satisfies
the `LinearCongruence` representation invariant. -/
def LIInv (li : LoopInformation) : Prop :=
  li.statics.Pairwise (· ≤ ·) ∧
  (∀ v ∈ li.statics, 0 ≤ v) ∧
  (∀ v ∈ li.statics, ∀ lc ∈ li.dynamics, v < lc.minimum) ∧
  (∀ lc ∈ li.dynamics, LCInv lc)

/-- System-level invariant: a nonempty collection of tracks, each
satisfying `LIInv`. -/
def SysInv (s : LoopInformationSystem) : Prop :=
  s.infos ≠ [] ∧ ∀ li ∈ s.infos, LIInv li

/-! ### day14: platform tilt simulation -/

/-- Embeds `enum Tile` of `src/day14.rs` (lines 15-20). -/
inductive Tile where
  | Empty
  | Obstacle
  | Rock
deriving DecidableEq, Repr

/-- Embeds `enum Direction` of `src/day14.rs` (lines 7-13). -/
inductive Direction where
  | North
  | East
  | South
  | West
deriving DecidableEq, Repr

/-- Embeds `struct Platform` of `src/day14.rs` (lines 37-40). -/
structure Platform where
  grid : List (List Tile)
deriving DecidableEq, Repr

/-- Embeds `Platform::size_x` (day14.rs 57-59): the length of row 0.
The Rust indexing `self.grid[0]` requires a nonempty grid; `headD`
makes the embedding total. -/
def Platform.size_x (p : Platform) : Nat := (p.grid.headD []).length

/-- Embeds `Platform::size_y` (day14.rs 61-63). -/
def Platform.size_y (p : Platform) : Nat := p.grid.length

/-- Reads `grid[y][x]`, total with `Tile.Empty` as the out-of-bounds
default; the theorems below only use it at in-bounds positions of
rectangular grids, where it coincides with the panicking Rust
indexing. -/
def tileAt (g : List (List Tile)) (x y : Nat) : Tile :=
  (g.getD y []).getD x Tile.Empty

/-- Writes `grid[y][x] = t`; `List.set` is a no-op out of bounds. -/
def setTile (g : List (List Tile)) (x y : Nat) (t : Tile) : List (List Tile) :=
  g.set y ((g.getD y []).set x t)

/-- The rock-sliding `loop` inside the `swap` closure of
`Platform::tilt` (day14.rs lines 74-88): starting from `(tx, ty)`, keep
stepping by `(dx, dy)` while the next cell is in bounds and `Empty`.
One unit of fuel models one loop iteration; the wrapper passes
`sx + sy` fuel, which the four unit directions can never exhaust. -/
def slideGo (g : List (List Tile)) (sx sy : Nat) (dx dy : Int) :
    Nat → Nat → Nat → Nat × Nat
  | 0, tx, ty => (tx, ty)
  | fuel + 1, tx, ty =>
    let nx : Int := (tx : Int) + dx
    let ny : Int := (ty : Int) + dy
    if nx < 0 ∨ (sx : Int) ≤ nx ∨ ny < 0 ∨ (sy : Int) ≤ ny then (tx, ty)
    else if tileAt g nx.toNat ny.toNat ≠ Tile.Empty then (tx, ty)
    else slideGo g sx sy dx dy fuel nx.toNat ny.toNat

/-- Embeds the `swap` closure of `Platform::tilt` (day14.rs lines
69-97): if `(x, y)` holds a `Rock`, slide it as far as possible in
direction `(dx, dy)` and, when it moved, clear the source cell and set
the target cell. -/
def doSwap (sx sy : Nat) (g : List (List Tile)) (x y : Nat) (dx dy : Int) :
    List (List Tile) :=
  if tileAt g x y = Tile.Rock then
    let t := slideGo g sx sy dx dy (sx + sy) x y
    if t.1 ≠ x ∨ t.2 ≠ y then
      setTile (setTile g x y Tile.Empty) t.1 t.2 Tile.Rock
    else g
  else g

/-- Embeds `Platform::tilt` (day14.rs lines 65-131): the per-direction
sweep orders of the Rust `for` loops, each cell visited by `swap`.
`1..sy` is `List.range' 1 (sy - 1)`, `(0..sx-1).rev()` is
`(List.range (sx - 1)).reverse`, and so on. -/
def Platform.tilt (p : Platform) (dir : Direction) : Platform :=
  let sx := p.size_x
  let sy := p.size_y
  match dir with
  | Direction.North =>
    ⟨(List.range' 1 (sy - 1)).foldl
      (fun g y => (List.range sx).foldl (fun g x => doSwap sx sy g x y 0 (-1)) g)
      p.grid⟩
  | Direction.East =>
    ⟨((List.range (sx - 1)).reverse).foldl
      (fun g x => (List.range sy).foldl (fun g y => doSwap sx sy g x y 1 0) g)
      p.grid⟩
  | Direction.South =>
    ⟨((List.range (sy - 1)).reverse).foldl
      (fun g y => (List.range sx).foldl (fun g x => doSwap sx sy g x y 0 1) g)
      p.grid⟩
  | Direction.West =>
    ⟨(List.range' 1 (sx - 1)).foldl
      (fun g x => (List.range sy).foldl (fun g y => doSwap sx sy g x y (-1) 0) g)
      p.grid⟩

/-- One spin cycle: the four-tilt sequence North, West, South, East
applied inside `Platform::cycle` (day14.rs lines 143-147). -/
def spinStep (p : Platform) : Platform :=
  (((p.tilt Direction.North).tilt Direction.West).tilt Direction.South).tilt
    Direction.East

/-- Association-list lookup standing for `cache.get(&next)` on the
`FxHashMap<Platform, usize>` of `Platform::cycle`; keys are compared
with the derived structural equality, as in Rust. -/
def lookupIndex (p : Platform) : List (Platform × Nat) → Option Nat
  | [] => none
  | (q, j) :: rest => if q = p then some j else lookupIndex p rest

/-- The `loop` of `Platform::cycle` (day14.rs lines 138-159), one unit
of fuel per iteration: return `current` once `i = n`; otherwise apply
the spin, increment `i`, and either jump ahead by whole cycles (state
seen before) or record the new state.  Every iteration increases `i` by
at least one and never past `n`, so fuel `n + 1` always suffices. -/
def cycleGo (n : Nat) : Nat → Nat → List (Platform × Nat) → Platform → Option Platform
  | 0, _, _, _ => none
  | fuel + 1, i, cache, current =>
    if i = n then some current
    else
      let next := spinStep current
      let i' := i + 1
      match lookupIndex next cache with
      | some prev_i =>
        let cycle_length := i' - prev_i
        let how_many_cycles := (n - i') / cycle_length
        cycleGo n fuel (i' + how_many_cycles * cycle_length) cache next
      | none => cycleGo n fuel i' ((next, i') :: cache) next

/-- Embeds `Platform::cycle` (day14.rs lines 133-160) with fuel `n + 1`;
`none` would mean the loop ran out of fuel. -/
def Platform.cycle (p : Platform) (n : Nat) : Option Platform :=
  cycleGo n (n + 1) 0 [] p

/-! ### day14: grid measurements used by the invariant claims -/

/-- A rectangular `sy` by `sx` grid: exactly `sy` rows, each of length
`sx`.  This is the shape the puzzle parser produces and the shape
`Platform::tilt` assumes when it indexes rows by `size_x`. -/
def Rect (g : List (List Tile)) (sx sy : Nat) : Prop :=
  g.length = sy ∧ ∀ row ∈ g, row.length = sx

/-- 1 for a `Rock`, 0 otherwise. -/
def cntRock (t : Tile) : Nat := if t = Tile.Rock then 1 else 0

/-- Number of rocks in one row. -/
def rockRow (row : List Tile) : Nat := (row.map cntRock).sum

/-- Total number of rocks in a grid. -/
def rockCount (g : List (List Tile)) : Nat := (g.map rockRow).sum

/-- What one `swap` call of `Platform::tilt` preserves about a grid `g`
relative to the original grid `g0`: rectangular shape, total rock
count, and the exact positions of all obstacles. -/
def TiltPreserved (g0 g : List (List Tile)) (sx sy : Nat) : Prop :=
  Rect g sx sy ∧ rockCount g = rockCount g0 ∧
  ∀ u v : Nat, tileAt g u v = Tile.Obstacle ↔ tileAt g0 u v = Tile.Obstacle

/-! ## Theorems -/

/-- **C4.** For every sequence that is exactly quadratic in the period
count (with nonnegative coefficients, the domain of the `usize`
arithmetic of `part2` in day21.rs), sampling it at 0, 1, 2 and applying
the Newton forward-difference formula of day21.rs lines 79-84
reproduces the sequence at every target `t`; in particular for
`f(k) = 3 + 5k + 2k^2` the extrapolation to `t = 100` is exactly
`f(100) = 20503`. -/
theorem extrapolation_exact_on_quadratics (k0 k1 k2 t : Nat) :
    newtonExtrapolate (quadSample k0 k1 k2 0) (quadSample k0 k1 k2 1)
        (quadSample k0 k1 k2 2) t = quadSample k0 k1 k2 t ∧
    newtonExtrapolate 3 10 21 100 = 20503 := by
  refine ⟨?_, by decide⟩
  have e1 : k0 + k1 * 1 + k2 * 1 * 1 - (k0 + k1 * 0 + k2 * 0 * 0) = k1 + k2 := by
    omega
  have e2 : k0 + k1 * 2 + k2 * 2 * 2 - (k0 + k1 * 1 + k2 * 1 * 1) - (k1 + k2)
      = 2 * k2 := by omega
  simp only [newtonExtrapolate, quadSample, e1, e2, Nat.sub_zero]
  rw [show 2 * k2 * t * (t - 1) = 2 * (k2 * t * (t - 1)) by ring,
    Nat.mul_div_cancel_left _ (by norm_num)]
  cases t with
  | zero => simp
  | succ s =>
    simp only [Nat.succ_sub_one]
    ring

/-- **C5.** `solve_two_lc` returns `None` exactly when the two residues
disagree modulo the gcd of the moduli, and `Some` otherwise; in
particular merging `(1 mod 4)` with `(0 mod 4)` yields `None`. -/
theorem solve_two_lc_unsat_detection (a b : LinearCongruence)
    (_ha : 1 ≤ a.modulus) (_hb : 1 ≤ b.modulus) :
    (solve_two_lc a b = none ↔
      a.value % (Int.gcd a.modulus b.modulus : Int)
        ≠ b.value % (Int.gcd a.modulus b.modulus : Int)) ∧
    ((solve_two_lc a b).isSome ↔
      a.value % (Int.gcd a.modulus b.modulus : Int)
        = b.value % (Int.gcd a.modulus b.modulus : Int)) ∧
    solve_two_lc ⟨1, 4, 0⟩ ⟨0, 4, 0⟩ = none := by
  refine ⟨?_, ?_, by decide⟩ <;>
    by_cases h :
        a.value % (Int.gcd a.modulus b.modulus : Int)
          = b.value % (Int.gcd a.modulus b.modulus : Int) <;>
      simp [solve_two_lc, h]

/-- Witness for C5 at the congruences `(1 mod 4)` and `(0 mod 4)`. -/
theorem solve_two_lc_unsat_detection_witness :
    (1 ≤ (4 : Int) ∧ 1 ≤ (4 : Int)) ∧
    ((solve_two_lc ⟨1, 4, 0⟩ ⟨0, 4, 0⟩ = none ↔
      (1 : Int) % (Int.gcd 4 4 : Int) ≠ (0 : Int) % (Int.gcd 4 4 : Int)) ∧
    ((solve_two_lc ⟨1, 4, 0⟩ ⟨0, 4, 0⟩).isSome ↔
      (1 : Int) % (Int.gcd 4 4 : Int) = (0 : Int) % (Int.gcd 4 4 : Int)) ∧
    solve_two_lc ⟨1, 4, 0⟩ ⟨0, 4, 0⟩ = none) :=
  ⟨⟨by decide, by decide⟩,
    solve_two_lc_unsat_detection ⟨1, 4, 0⟩ ⟨0, 4, 0⟩ (by decide) (by decide)⟩

/-- **C6.** When no static offset satisfies the whole system and some
track has no dynamic congruence, `LoopInformationSystem::solve` returns
the explicit `None` value (day08.rs lines 160-162) instead of
panicking. -/
theorem solve_none_without_dynamics (s : LoopInformationSystem)
    (hstat : ∀ n ∈ s.infos.flatMap LoopInformation.statics, s.is_solution n = false)
    (hdyn : ∃ li ∈ s.infos, li.dynamics = []) :
    s.solve = none := by
  have hfind :
      (s.infos.flatMap LoopInformation.statics).find? (fun n => s.is_solution n)
        = none := by
    rw [List.find?_eq_none]
    intro x hx
    simp [hstat x hx]
  have hno : s.has_dynamic_solution = false := by
    obtain ⟨li, hmem, hempty⟩ := hdyn
    have : s.infos.all LoopInformation.has_dynamic_solution = false := by
      apply Bool.eq_false_iff.mpr
      intro hall
      have hli := List.all_eq_true.mp hall li hmem
      simp [LoopInformation.has_dynamic_solution, hempty] at hli
    simp [LoopInformationSystem.has_dynamic_solution, this]
  unfold LoopInformationSystem.solve
  rw [hfind]
  simp [hno]

/-- Witness for C6 at the one-track system whose track has neither
static offsets nor dynamic congruences. -/
theorem solve_none_without_dynamics_witness :
    (∀ n ∈ (LoopInformationSystem.infos ⟨[⟨[], []⟩]⟩).flatMap LoopInformation.statics,
      LoopInformationSystem.is_solution ⟨[⟨[], []⟩]⟩ n = false) ∧
    (∃ li ∈ (LoopInformationSystem.infos ⟨[⟨[], []⟩]⟩), li.dynamics = []) ∧
    LoopInformationSystem.solve ⟨[⟨[], []⟩]⟩ = none :=
  ⟨by decide, by decide,
    solve_none_without_dynamics ⟨[⟨[], []⟩]⟩ (by decide) (by decide)⟩

/-- **Counterexample to C2 as stated.**  A single track with sorted
static offsets `[10]` and the dynamic congruence `0 (mod 2)` with
minimum 0: `solve` returns `Some 10` via the static fast path, yet
`n = 0` already satisfies the track, so the returned value is not the
smallest simultaneous solution. -/
theorem solve_returns_nonminimal_solution :
    LoopInformationSystem.solve ⟨[⟨[10], [⟨0, 2, 0⟩]⟩]⟩ = some 10 ∧
    LoopInformationSystem.is_solution ⟨[⟨[10], [⟨0, 2, 0⟩]⟩]⟩ 0 = true ∧
    (0 : Int) < 10 :=
  ⟨rfl, by decide, by decide⟩

/-! ### CRT merge soundness -/

theorem bool_eq_of_iff {x y : Bool} (h : x = true ↔ y = true) : x = y := by
  cases x <;> cases y <;> simp_all

theorem is_solution_iff (lc : LinearCongruence) (n : Int) :
    lc.is_solution n = true ↔ lc.minimum ≤ n ∧ n % lc.modulus = lc.value := by
  simp [LinearCongruence.is_solution]

theorem LCInv_new (v m mn : Int) (hm : 1 ≤ m) (hmn : 0 ≤ mn) :
    LCInv (LinearCongruence.new v m mn) :=
  ⟨hm, Int.emod_nonneg v (by omega), Int.emod_lt_of_pos v (by omega), hmn⟩

/-- With residues in `[0, modulus)`, the residue test of `is_solution`
is divisibility of the difference. -/
theorem emod_eq_iff_dvd_sub (n r m : Int) (h0 : 0 ≤ r) (h1 : r < m) :
    n % m = r ↔ m ∣ (n - r) := by
  constructor
  · intro h
    refine Int.dvd_of_emod_eq_zero ?_
    rw [Int.sub_emod, h, Int.emod_eq_of_lt h0 h1, sub_self, Int.zero_emod]
  · intro h
    have : n % m = r % m := by
      rw [Int.emod_eq_emod_iff_emod_sub_eq_zero]
      exact Int.emod_eq_zero_of_dvd h
    rw [this, Int.emod_eq_of_lt h0 h1]

theorem int_lcm_dvd_iff (m1 m2 k : Int) :
    ((Int.lcm m1 m2 : Nat) : Int) ∣ k ↔ m1 ∣ k ∧ m2 ∣ k :=
  ⟨fun h => ⟨dvd_trans Int.dvd_lcm_left h, dvd_trans Int.dvd_lcm_right h⟩,
    fun h => Int.lcm_dvd h.1 h.2⟩

theorem int_lcm_pos (m1 m2 : Int) (h1 : 1 ≤ m1) (h2 : 1 ≤ m2) :
    1 ≤ ((Int.lcm m1 m2 : Nat) : Int) := by
  have : Int.lcm m1 m2 ≠ 0 := by
    rw [Int.lcm_def]
    exact Nat.lcm_ne_zero (by simpa using (by omega : m1 ≠ 0))
      (by simpa using (by omega : m2 ≠ 0))
  omega

/-- The merged value of `solve_two_lc`, for an arbitrary Bézout pair
`(x, y)` of the two moduli, is congruent to `r1` modulo `m1` and to
`r2` modulo `m2`. -/
theorem crt_value_congruent (m1 m2 r1 r2 x y : Int) (hm1 : 1 ≤ m1) (_hm2 : 1 ≤ m2)
    (hbez : ((Int.gcd m1 m2 : Nat) : Int) = m1 * x + m2 * y)
    (hc : r1 % ((Int.gcd m1 m2 : Nat) : Int) = r2 % ((Int.gcd m1 m2 : Nat) : Int)) :
    m1 ∣ (r1 - (x * m1 * (r1 - r2)).tdiv ((Int.gcd m1 m2 : Nat) : Int) - r1) ∧
    m2 ∣ (r1 - (x * m1 * (r1 - r2)).tdiv ((Int.gcd m1 m2 : Nat) : Int) - r2) := by
  set g : Int := ((Int.gcd m1 m2 : Nat) : Int) with hg
  have hgpos : 0 < g := by
    rw [hg]
    exact_mod_cast Int.gcd_pos_of_ne_zero_left m2 (by omega)
  have hdiff : g ∣ (r1 - r2) := by
    refine Int.dvd_of_emod_eq_zero ?_
    rw [Int.sub_emod, hc, sub_self, Int.zero_emod]
  obtain ⟨d, hd⟩ := hdiff
  have hx : (x * m1 * (r1 - r2)).tdiv g = x * m1 * d := by
    rw [hd, show x * m1 * (g * d) = g * (x * m1 * d) by ring]
    exact Int.mul_tdiv_cancel_left _ (by omega)
  constructor
  · rw [hx]
    exact ⟨-(x * d), by ring⟩
  · rw [hx]
    exact ⟨y * d, by linear_combination hd + d * hbez⟩

/-- Soundness of the CRT merge `solve_two_lc`: on invariant-satisfying
congruences it fails exactly when the two solution sets are disjoint,
and a successful merge has modulus `lcm`, minimum `max`, satisfies the
representation invariant, and describes exactly the intersection of the
two solution sets. -/
theorem solve_two_lc_sound (a b : LinearCongruence) (ha : LCInv a) (hb : LCInv b) :
    (solve_two_lc a b = none →
      ∀ n : Int, ¬(a.is_solution n = true ∧ b.is_solution n = true)) ∧
    (∀ c, solve_two_lc a b = some c →
      LCInv c ∧ c.modulus = ((Int.lcm a.modulus b.modulus : Nat) : Int) ∧
      c.minimum = max a.minimum b.minimum ∧
      ∀ n : Int, c.is_solution n = (a.is_solution n && b.is_solution n)) := by
  obtain ⟨ham, hav0, havm, hamin⟩ := ha
  obtain ⟨hbm, hbv0, hbvm, hbmin⟩ := hb
  have hgdvd1 : ((Int.gcd a.modulus b.modulus : Nat) : Int) ∣ a.modulus :=
    Int.gcd_dvd_left
  have hgdvd2 : ((Int.gcd a.modulus b.modulus : Nat) : Int) ∣ b.modulus :=
    Int.gcd_dvd_right
  by_cases hcompat :
      a.value % ((Int.gcd a.modulus b.modulus : Nat) : Int)
        = b.value % ((Int.gcd a.modulus b.modulus : Nat) : Int)
  · have heq : solve_two_lc a b = some (LinearCongruence.new
        (a.value - (Int.gcdA a.modulus b.modulus * a.modulus
          * (a.value - b.value)).tdiv ((Int.gcd a.modulus b.modulus : Nat) : Int))
        ((Int.lcm a.modulus b.modulus : Nat) : Int)
        (max a.minimum b.minimum)) := by
      simp [solve_two_lc, hcompat]
    constructor
    · intro hnone
      rw [heq] at hnone
      exact absurd hnone (by simp)
    · intro c hc
      rw [heq] at hc
      obtain rfl := (Option.some_inj.mp hc).symm
      have hl : 1 ≤ ((Int.lcm a.modulus b.modulus : Nat) : Int) :=
        int_lcm_pos a.modulus b.modulus ham hbm
      have hcongr := crt_value_congruent a.modulus b.modulus a.value b.value
        (Int.gcdA a.modulus b.modulus) (Int.gcdB a.modulus b.modulus) ham hbm
        (Int.gcd_eq_gcd_ab a.modulus b.modulus) hcompat
      set C : Int := a.value - (Int.gcdA a.modulus b.modulus * a.modulus
        * (a.value - b.value)).tdiv ((Int.gcd a.modulus b.modulus : Nat) : Int)
        with hC
      refine ⟨LCInv_new _ _ _ hl (le_max_of_le_left hamin), rfl, rfl, ?_⟩
      intro n
      have e1 : a.modulus ∣ (n - C) ↔ n % a.modulus = a.value := by
        rw [emod_eq_iff_dvd_sub n a.value a.modulus hav0 havm]
        constructor
        · intro h
          have h2 := dvd_add h hcongr.1
          rwa [sub_add_sub_cancel] at h2
        · intro h
          have h2 := dvd_sub h hcongr.1
          rwa [sub_sub_sub_cancel_right] at h2
      have e2 : b.modulus ∣ (n - C) ↔ n % b.modulus = b.value := by
        rw [emod_eq_iff_dvd_sub n b.value b.modulus hbv0 hbvm]
        constructor
        · intro h
          have h2 := dvd_add h hcongr.2
          rwa [sub_add_sub_cancel] at h2
        · intro h
          have h2 := dvd_sub h hcongr.2
          rwa [sub_sub_sub_cancel_right] at h2
      apply bool_eq_of_iff
      rw [Bool.and_eq_true, is_solution_iff, is_solution_iff, is_solution_iff]
      have hfmod : (LinearCongruence.new C
          ((Int.lcm a.modulus b.modulus : Nat) : Int)
          (max a.minimum b.minimum)).modulus
          = ((Int.lcm a.modulus b.modulus : Nat) : Int) := rfl
      have hfmin : (LinearCongruence.new C
          ((Int.lcm a.modulus b.modulus : Nat) : Int)
          (max a.minimum b.minimum)).minimum = max a.minimum b.minimum := rfl
      have hfval : (LinearCongruence.new C
          ((Int.lcm a.modulus b.modulus : Nat) : Int)
          (max a.minimum b.minimum)).value
          = C % ((Int.lcm a.modulus b.modulus : Nat) : Int) := rfl
      rw [hfmod, hfmin, hfval]
      have hres : n % ((Int.lcm a.modulus b.modulus : Nat) : Int)
          = C % ((Int.lcm a.modulus b.modulus : Nat) : Int)
          ↔ n % a.modulus = a.value ∧ n % b.modulus = b.value := by
        rw [Int.emod_eq_emod_iff_emod_sub_eq_zero]
        constructor
        · intro h
          have hdvd := (int_lcm_dvd_iff a.modulus b.modulus (n - C)).mp
            (Int.dvd_of_emod_eq_zero h)
          exact ⟨e1.mp hdvd.1, e2.mp hdvd.2⟩
        · intro h
          exact Int.emod_eq_zero_of_dvd
            ((int_lcm_dvd_iff a.modulus b.modulus (n - C)).mpr
              ⟨e1.mpr h.1, e2.mpr h.2⟩)
      rw [hres, max_le_iff]
      tauto
  · constructor
    · intro _ n hsol
      obtain ⟨hna, hnb⟩ := hsol
      rw [is_solution_iff] at hna hnb
      apply hcompat
      rw [← hna.2, ← hnb.2, Int.emod_emod_of_dvd n hgdvd1, Int.emod_emod_of_dvd n hgdvd2]
    · intro c hc
      simp [solve_two_lc, hcompat] at hc

/-- The congruence produced by `solve_two_lc` does not depend on which
Bézout coefficient pair the extended gcd returns: any pair `(x, y)`
with `gcd = m1 * x + m2 * y` yields the same merged `LinearCongruence`,
because all candidates agree modulo the lcm and `new` reduces the
stored value.  This justifies embedding `num`'s `extended_gcd_lcm`
with `Int.gcdA`. -/
theorem solve_two_lc_bezout_arbitrary (a b : LinearCongruence) (x y : Int)
    (ha : LCInv a) (hb : LCInv b)
    (hbez : ((Int.gcd a.modulus b.modulus : Nat) : Int)
      = a.modulus * x + b.modulus * y)
    (hcompat : a.value % ((Int.gcd a.modulus b.modulus : Nat) : Int)
      = b.value % ((Int.gcd a.modulus b.modulus : Nat) : Int)) :
    solve_two_lc a b = some (LinearCongruence.new
      (a.value - (x * a.modulus * (a.value - b.value)).tdiv
        ((Int.gcd a.modulus b.modulus : Nat) : Int))
      ((Int.lcm a.modulus b.modulus : Nat) : Int)
      (max a.minimum b.minimum)) := by
  obtain ⟨ham, hav0, havm, hamin⟩ := ha
  obtain ⟨hbm, hbv0, hbvm, hbmin⟩ := hb
  have hA := crt_value_congruent a.modulus b.modulus a.value b.value
    (Int.gcdA a.modulus b.modulus) (Int.gcdB a.modulus b.modulus) ham hbm
    (Int.gcd_eq_gcd_ab a.modulus b.modulus) hcompat
  have hX := crt_value_congruent a.modulus b.modulus a.value b.value
    x y ham hbm hbez hcompat
  set CA : Int := a.value - (Int.gcdA a.modulus b.modulus * a.modulus
    * (a.value - b.value)).tdiv ((Int.gcd a.modulus b.modulus : Nat) : Int)
  set CX : Int := a.value - (x * a.modulus
    * (a.value - b.value)).tdiv ((Int.gcd a.modulus b.modulus : Nat) : Int)
  have hd1 : a.modulus ∣ CA - CX := by
    have h2 := dvd_sub hA.1 hX.1
    rwa [sub_sub_sub_cancel_right] at h2
  have hd2 : b.modulus ∣ CA - CX := by
    have h2 := dvd_sub hA.2 hX.2
    rwa [sub_sub_sub_cancel_right] at h2
  have hemod : CA % ((Int.lcm a.modulus b.modulus : Nat) : Int)
      = CX % ((Int.lcm a.modulus b.modulus : Nat) : Int) := by
    rw [Int.emod_eq_emod_iff_emod_sub_eq_zero]
    exact Int.emod_eq_zero_of_dvd
      ((int_lcm_dvd_iff a.modulus b.modulus (CA - CX)).mpr ⟨hd1, hd2⟩)
  have heq : solve_two_lc a b = some (LinearCongruence.new CA
      ((Int.lcm a.modulus b.modulus : Nat) : Int)
      (max a.minimum b.minimum)) := by
    simp [solve_two_lc, hcompat]
  rw [heq]
  simp only [LinearCongruence.new, hemod]

/-- **C3.** On representation-invariant congruences with compatible
residues, `solve_two_lc` succeeds and the merged congruence has modulus
`lcm(m1, m2)`, minimum `max(min1, min2)`, and solution set the exact
intersection of the two input solution sets. -/
theorem solve_two_lc_merges_intersection (a b : LinearCongruence) (n : Int)
    (ha : LCInv a) (hb : LCInv b)
    (hcompat : a.value % ((Int.gcd a.modulus b.modulus : Nat) : Int)
      = b.value % ((Int.gcd a.modulus b.modulus : Nat) : Int)) :
    ∃ c, solve_two_lc a b = some c ∧
      c.modulus = ((Int.lcm a.modulus b.modulus : Nat) : Int) ∧
      c.minimum = max a.minimum b.minimum ∧
      c.is_solution n = (a.is_solution n && b.is_solution n) := by
  cases hsome : solve_two_lc a b with
  | none =>
    exfalso
    have hne : solve_two_lc a b ≠ none := by simp [solve_two_lc, hcompat]
    exact hne hsome
  | some c =>
    obtain ⟨hinv, hmod, hmin, hsol⟩ := (solve_two_lc_sound a b ha hb).2 c hsome
    exact ⟨c, rfl, hmod, hmin, hsol n⟩

/-- Witness for C3: merging `(0 mod 2, min 0)` and `(1 mod 3, min 0)`,
with the solution-set clause evaluated at `n = 4`. -/
theorem solve_two_lc_merges_intersection_witness :
    (LCInv ⟨0, 2, 0⟩ ∧ LCInv ⟨1, 3, 0⟩ ∧
      (0 : Int) % ((Int.gcd 2 3 : Nat) : Int) = 1 % ((Int.gcd 2 3 : Nat) : Int)) ∧
    (∃ c, solve_two_lc ⟨0, 2, 0⟩ ⟨1, 3, 0⟩ = some c ∧
      c.modulus = ((Int.lcm 2 3 : Nat) : Int) ∧
      c.minimum = max 0 0 ∧
      c.is_solution 4
        = (LinearCongruence.is_solution ⟨0, 2, 0⟩ 4
            && LinearCongruence.is_solution ⟨1, 3, 0⟩ 4)) :=
  ⟨⟨by unfold LCInv; decide, by unfold LCInv; decide, by decide⟩,
    solve_two_lc_merges_intersection ⟨0, 2, 0⟩ ⟨1, 3, 0⟩ 4
      (by unfold LCInv; decide) (by unfold LCInv; decide) (by decide)⟩

/-- Concrete evaluation of one CRT merge (the Bézout coefficient
`Int.gcdA 2 3 = -1` does not reduce in the kernel, so it is rewritten
first): merging `(0 mod 2)` with `(1 mod 3)` gives `(4 mod 6)`. -/
theorem solve_two_lc_concrete :
    solve_two_lc ⟨0, 2, 0⟩ ⟨1, 3, 0⟩ = some ⟨4, 6, 0⟩ := by
  have hA : Int.gcdA 2 3 = -1 := by
    show Nat.gcdA 2 3 = -1
    norm_num [Nat.gcdA, Nat.xgcd, Nat.xgcdAux_rec]
  have hstep : solve_two_lc ⟨0, 2, 0⟩ ⟨1, 3, 0⟩
      = if (0 : Int) % ((Int.gcd 2 3 : Nat) : Int)
            ≠ (1 : Int) % ((Int.gcd 2 3 : Nat) : Int) then none
        else some (LinearCongruence.new
          (0 - (Int.gcdA 2 3 * 2 * ((0 : Int) - 1)).tdiv ((Int.gcd 2 3 : Nat) : Int))
          ((Int.lcm 2 3 : Nat) : Int) (max 0 0)) := rfl
  rw [hstep, hA]
  decide

/-- **C8.** Every `LinearCongruence` built by the constructor (on the
arguments the program feeds it: positive modulus, nonnegative minimum)
or by a successful CRT merge of invariant-satisfying congruences
satisfies the representation invariant. -/
theorem linear_congruence_rep_invariant (v m mn : Int) (a b c : LinearCongruence)
    (hm : 1 ≤ m) (hmn : 0 ≤ mn) (ha : LCInv a) (hb : LCInv b)
    (hmerge : solve_two_lc a b = some c) :
    LCInv (LinearCongruence.new v m mn) ∧ LCInv c :=
  ⟨LCInv_new v m mn hm hmn, ((solve_two_lc_sound a b ha hb).2 c hmerge).1⟩

/-- Witness for C8 at `new 3 5 7` and the merge of `(0 mod 2)` with
`(1 mod 3)`. -/
theorem linear_congruence_rep_invariant_witness :
    (1 ≤ (5 : Int) ∧ 0 ≤ (7 : Int) ∧ LCInv ⟨0, 2, 0⟩ ∧ LCInv ⟨1, 3, 0⟩ ∧
      solve_two_lc ⟨0, 2, 0⟩ ⟨1, 3, 0⟩ = some ⟨4, 6, 0⟩) ∧
    (LCInv (LinearCongruence.new 3 5 7) ∧ LCInv ⟨4, 6, 0⟩) :=
  ⟨⟨by decide, by decide, by unfold LCInv; decide, by unfold LCInv; decide,
      solve_two_lc_concrete⟩,
    linear_congruence_rep_invariant 3 5 7 ⟨0, 2, 0⟩ ⟨1, 3, 0⟩ ⟨4, 6, 0⟩
      (by decide) (by decide) (by unfold LCInv; decide) (by unfold LCInv; decide)
      solve_two_lc_concrete⟩

/-! ### Least-solution search of `find_solution` -/

/-- The fuel-bounded search loop, started at `minimum tdiv modulus` as
in the source, returns the least member of the congruence's solution
set whenever the representation invariant holds and at least two
iterations of fuel are available. -/
theorem findSolutionGo_least (v m mn : Int) (hm : 1 ≤ m) (hv0 : 0 ≤ v) (hvm : v < m)
    (hmn : 0 ≤ mn) (fuel : Nat) (hfuel : 2 ≤ fuel) :
    ∃ s, findSolutionGo v m mn fuel (mn.tdiv m) = some s ∧
      (mn ≤ s ∧ s % m = v) ∧ ∀ n : Int, mn ≤ n → n % m = v → s ≤ n := by
  obtain ⟨k, rfl⟩ : ∃ k, fuel = k + 2 := ⟨fuel - 2, by omega⟩
  have hdiv : mn.tdiv m = mn / m := Int.tdiv_eq_ediv hmn (by omega)
  rw [hdiv]
  have hkey : m * (mn / m) + mn % m = mn := Int.ediv_add_emod mn m
  have hr0 : 0 ≤ mn % m := Int.emod_nonneg mn (by omega)
  have hrm : mn % m < m := Int.emod_lt_of_pos mn (by omega)
  set q : Int := mn / m with hq
  have hmod : ∀ j : Int, (j * m + v) % m = v := fun j => by
    rw [show j * m + v = v + j * m from by ring, Int.add_mul_emod_self,
      Int.emod_eq_of_lt hv0 hvm]
  have hstep : ∀ (n : Int) (f : Nat),
      findSolutionGo v m mn (f + 1) n
        = if mn ≤ n * m + v then some (n * m + v)
          else findSolutionGo v m mn f (n + 1) := fun n f => rfl
  by_cases hcase : mn ≤ q * m + v
  · refine ⟨q * m + v, ?_, ⟨hcase, hmod q⟩, ?_⟩
    · show findSolutionGo v m mn (k + 1 + 1) q = some (q * m + v)
      rw [hstep, if_pos hcase]
    · intro n hn1 hn2
      have hnkey : m * (n / m) + v = n := by
        have h0 := Int.ediv_add_emod n m
        rw [hn2] at h0
        exact h0
      by_contra hlt
      push_neg at hlt
      have h1 : m * (n / m) < m * q := by linarith
      have h2 : n / m < q := lt_of_mul_lt_mul_left h1 (by omega)
      have h3 : n / m ≤ q - 1 := by omega
      have h4 := mul_le_mul_of_nonneg_left h3 (by omega : (0 : Int) ≤ m)
      have h5 : m * (q - 1) + v < mn := by
        have hx : m * (q - 1) + v = m * q + v - m := by ring
        linarith
      linarith
  · push_neg at hcase
    have hcond2 : mn ≤ (q + 1) * m + v := by
      have hx : (q + 1) * m + v = m * q + m + v := by ring
      linarith
    refine ⟨(q + 1) * m + v, ?_, ⟨hcond2, hmod (q + 1)⟩, ?_⟩
    · show findSolutionGo v m mn (k + 1 + 1) q = some ((q + 1) * m + v)
      rw [hstep, if_neg (not_le.mpr hcase), hstep, if_pos hcond2]
    · intro n hn1 hn2
      have hnkey : m * (n / m) + v = n := by
        have h0 := Int.ediv_add_emod n m
        rw [hn2] at h0
        exact h0
      have h1 : m * q < m * (n / m) := by linarith
      have h2 : q < n / m := lt_of_mul_lt_mul_left h1 (by omega)
      have h3 : q + 1 ≤ n / m := by omega
      have h4 := mul_le_mul_of_nonneg_left h3 (by omega : (0 : Int) ≤ m)
      linarith

/-- On representation-invariant congruences, `find_solution` returns
the least solution of the congruence. -/
theorem find_solution_least (lc : LinearCongruence) (h : LCInv lc) :
    ∃ s, lc.find_solution = some s ∧ lc.is_solution s = true ∧
      ∀ n : Int, lc.is_solution n = true → s ≤ n := by
  obtain ⟨hm, hv0, hvm, hmn⟩ := h
  obtain ⟨s, hs, ⟨hs1, hs2⟩, hleast⟩ := findSolutionGo_least lc.value lc.modulus
    lc.minimum hm hv0 hvm hmn (lc.minimum.toNat + 2) (by omega)
  refine ⟨s, hs, ?_, ?_⟩
  · rw [is_solution_iff]
    exact ⟨hs1, hs2⟩
  · intro n hn
    rw [is_solution_iff] at hn
    exact hleast n hn.1 hn.2

/-! ### Soundness of the combination search in `solve` -/

/-- Folding `solve_two_lc` over a combination (the loop of `solve_lcs`)
either fails, in which case the congruences have no common solution, or
produces an invariant-satisfying congruence describing exactly the
common solutions. -/
theorem mergeAll_sound (rest : List LinearCongruence) :
    ∀ (first : LinearCongruence), LCInv first → (∀ lc ∈ rest, LCInv lc) →
    (mergeAll first rest = none →
      ∀ n : Int, ¬(first.is_solution n = true ∧
        ∀ lc ∈ rest, lc.is_solution n = true)) ∧
    (∀ c, mergeAll first rest = some c →
      LCInv c ∧
      ∀ n : Int, (c.is_solution n = true ↔
        (first.is_solution n = true ∧ ∀ lc ∈ rest, lc.is_solution n = true))) := by
  induction rest with
  | nil =>
    intro first hf _
    constructor
    · intro hnone
      simp [mergeAll] at hnone
    · intro c hc
      rw [show mergeAll first [] = some first from rfl] at hc
      obtain rfl := Option.some_inj.mp hc
      exact ⟨hf, fun n => by simp⟩
  | cons lc rest ih =>
    intro first hf hall
    have hlc : LCInv lc := hall lc (by simp)
    have hrest : ∀ x ∈ rest, LCInv x := fun x hx => hall x (by simp [hx])
    cases h2 : solve_two_lc first lc with
    | none =>
      have hnone := (solve_two_lc_sound first lc hf hlc).1 h2
      constructor
      · intro _ n hn
        exact hnone n ⟨hn.1, hn.2 lc (by simp)⟩
      · intro c hc
        rw [show mergeAll first (lc :: rest) = none from by simp [mergeAll, h2]] at hc
        exact absurd hc (by simp)
    | some s =>
      obtain ⟨hsinv, -, -, hsol⟩ := (solve_two_lc_sound first lc hf hlc).2 s h2
      have hMA : mergeAll first (lc :: rest) = mergeAll s rest := by
        simp [mergeAll, h2]
      have IH := ih s hsinv hrest
      constructor
      · intro hM n hn
        refine IH.1 (hMA ▸ hM) n ⟨?_, fun x hx => hn.2 x (by simp [hx])⟩
        rw [hsol n, Bool.and_eq_true]
        exact ⟨hn.1, hn.2 lc (by simp)⟩
      · intro c hc
        obtain ⟨hcinv, hiff⟩ := IH.2 c (by rw [← hMA]; exact hc)
        refine ⟨hcinv, fun n => ?_⟩
        rw [hiff n, hsol n, Bool.and_eq_true]
        constructor
        · rintro ⟨⟨h1, h1'⟩, h3⟩
          refine ⟨h1, fun x hx => ?_⟩
          rcases List.mem_cons.mp hx with rfl | hx'
          · exact h1'
          · exact h3 x hx'
        · rintro ⟨h1, h2'⟩
          exact ⟨⟨h1, h2' lc (by simp)⟩, fun x hx => h2' x (by simp [hx])⟩

/-- `solve_lcs` on a nonempty, invariant-satisfying combination either
reports the combination unsatisfiable — and then no integer satisfies
all its congruences — or returns the least integer satisfying all of
them. -/
theorem solve_lcs_sound (lcs : List LinearCongruence) (hne : lcs ≠ [])
    (hinv : ∀ lc ∈ lcs, LCInv lc) :
    (solve_lcs lcs = none → ∀ n : Int, ¬ ∀ lc ∈ lcs, lc.is_solution n = true) ∧
    (∀ w, solve_lcs lcs = some w →
      (∀ lc ∈ lcs, lc.is_solution w = true) ∧
      ∀ n : Int, (∀ lc ∈ lcs, lc.is_solution n = true) → w ≤ n) := by
  match lcs, hne with
  | first :: rest, _ =>
    have hf : LCInv first := hinv first (by simp)
    have hrest : ∀ x ∈ rest, LCInv x := fun x hx => hinv x (by simp [hx])
    have hMA := mergeAll_sound rest first hf hrest
    have hsl : solve_lcs (first :: rest)
        = (mergeAll first rest).bind LinearCongruence.find_solution := rfl
    cases hM : mergeAll first rest with
    | none =>
      constructor
      · intro _ n hn
        exact hMA.1 hM n ⟨hn first (by simp), fun x hx => hn x (by simp [hx])⟩
      · intro w hw
        rw [hsl, hM] at hw
        exact absurd hw (by simp)
    | some merged =>
      obtain ⟨hminv, hiff⟩ := hMA.2 merged hM
      obtain ⟨s, hsfind, hssol, hsleast⟩ := find_solution_least merged hminv
      have hbind : solve_lcs (first :: rest) = merged.find_solution := by
        rw [hsl, hM]
        rfl
      constructor
      · intro hnone
        rw [hbind, hsfind] at hnone
        exact absurd hnone (by simp)
      · intro w hw
        rw [hbind, hsfind] at hw
        obtain rfl := Option.some_inj.mp hw
        constructor
        · intro lc hlc
          have hs' := (hiff s).mp hssol
          rcases List.mem_cons.mp hlc with rfl | hx
          · exact hs'.1
          · exact hs'.2 lc hx
        · intro n hn
          apply hsleast
          rw [hiff n]
          exact ⟨hn first (by simp), fun x hx => hn x (by simp [hx])⟩

/-- Membership in the cartesian product of a list of lists is choosing
one element from each list, position by position. -/
theorem cartProd_mem {α : Type} :
    ∀ (ls : List (List α)) (c : List α),
      c ∈ cartProd ls ↔ List.Forall₂ (fun x l => x ∈ l) c ls := by
  intro ls
  induction ls with
  | nil =>
    intro c
    simp [cartProd, List.forall₂_nil_right_iff]
  | cons l ls ih =>
    intro c
    simp only [cartProd, List.mem_flatMap, List.mem_map]
    rw [List.forall₂_cons_right_iff]
    constructor
    · rintro ⟨x, hx, c', hc', rfl⟩
      exact ⟨x, c', hx, (ih c').mp hc', rfl⟩
    · rintro ⟨x, c', hx, hc', rfl⟩
      exact ⟨x, hx, c', (ih c').mpr hc', rfl⟩

/-- If every track has a dynamic congruence satisfied by `m`, then some
combination of the product consists only of congruences satisfied by
`m`. -/
theorem exists_combo (infos : List LoopInformation) (m : Int)
    (h : ∀ li ∈ infos, ∃ lc ∈ li.dynamics, lc.is_solution m = true) :
    ∃ c ∈ cartProd (infos.map LoopInformation.dynamics),
      ∀ lc ∈ c, lc.is_solution m = true := by
  induction infos with
  | nil => exact ⟨[], by simp [cartProd], by simp⟩
  | cons li infos ih =>
    obtain ⟨lc0, hlc0m, hlc0s⟩ := h li (by simp)
    obtain ⟨c, hcmem, hcall⟩ := ih (fun x hx => h x (by simp [hx]))
    refine ⟨lc0 :: c, ?_, ?_⟩
    · simp only [List.map_cons, cartProd, List.mem_flatMap, List.mem_map]
      exact ⟨lc0, hlc0m, c, hcmem, rfl⟩
    · intro x hx
      rcases List.mem_cons.mp hx with rfl | hx'
      · exact hlc0s
      · exact hcall x hx'

/-- Every combination of the product is nonempty (for a nonempty
system), all its congruences come from some track's dynamics, and an
integer satisfying the whole combination satisfies every track. -/
theorem combo_props (infos : List LoopInformation) (c : List LinearCongruence)
    (hc : c ∈ cartProd (infos.map LoopInformation.dynamics)) :
    c.length = infos.length ∧
    (∀ lc ∈ c, ∃ li ∈ infos, lc ∈ li.dynamics) ∧
    ∀ m : Int, (∀ lc ∈ c, lc.is_solution m = true) →
      ∀ li ∈ infos, li.is_solution m = true := by
  rw [cartProd_mem, List.forall₂_map_right_iff] at hc
  induction hc with
  | nil => exact ⟨rfl, by simp, by simp⟩
  | @cons x li c' infos' hxl hrest ih =>
    obtain ⟨ihlen, ihmem, ihsol⟩ := ih
    refine ⟨by simp [ihlen], ?_, ?_⟩
    · intro lc hlc
      rcases List.mem_cons.mp hlc with rfl | h'
      · exact ⟨li, by simp, hxl⟩
      · obtain ⟨li', hli', hmem'⟩ := ihmem lc h'
        exact ⟨li', by simp [hli'], hmem'⟩
    · intro m hm li' hli'
      rcases List.mem_cons.mp hli' with rfl | h'
      · have hany : li'.dynamics.any (fun lc => lc.is_solution m) = true :=
          List.any_eq_true.mpr ⟨x, hxl, hm x (by simp)⟩
        simp [LoopInformation.is_solution, hany]
      · exact ihsol m (fun lc h => hm lc (by simp [h])) li' h'

/-- `List.min?` on integers returns a least member. -/
theorem int_min?_some (L : List Int) (v : Int) :
    L.min? = some v ↔ v ∈ L ∧ ∀ x ∈ L, v ≤ x := by
  haveI : Std.Antisymm (fun (a b : Int) => a ≤ b) :=
    ⟨fun h h' => le_antisymm h h'⟩
  exact List.min?_eq_some_iff (fun a => le_refl a) (fun a b => min_choice a b)
    (fun a b c => le_min_iff)

/-- A successful `find?` splits its list into rejected elements, the
hit, and a remainder. -/
theorem find?_split {α : Type} (p : α → Bool) :
    ∀ (l : List α) (x : α), l.find? p = some x →
      p x = true ∧ ∃ l1 l2, l = l1 ++ x :: l2 ∧ ∀ y ∈ l1, p y = false := by
  intro l
  induction l with
  | nil =>
    intro x hx
    simp at hx
  | cons a l ih =>
    intro x hx
    cases hpa : p a with
    | true =>
      rw [List.find?_cons_of_pos _ hpa] at hx
      obtain rfl := Option.some_inj.mp hx
      exact ⟨hpa, [], l, rfl, by simp⟩
    | false =>
      rw [List.find?_cons_of_neg _ (by simp [hpa])] at hx
      obtain ⟨hpx, l1, l2, hsplit, hl1⟩ := ih x hx
      refine ⟨hpx, a :: l1, l2, by rw [hsplit, List.cons_append], ?_⟩
      intro y hy
      rcases List.mem_cons.mp hy with rfl | hy'
      · exact hpa
      · exact hl1 y hy'

/-- `find?` over an append hits in the first part, or rejects all of it
and hits in the second. -/
theorem find?_append_split {α : Type} (p : α → Bool) (l1 l2 : List α) (x : α) :
    (l1 ++ l2).find? p = some x →
      l1.find? p = some x ∨ ((∀ y ∈ l1, p y = false) ∧ l2.find? p = some x) := by
  induction l1 with
  | nil =>
    intro h
    exact Or.inr ⟨by simp, h⟩
  | cons a l ih =>
    intro h
    cases hpa : p a with
    | true =>
      rw [List.cons_append, List.find?_cons_of_pos _ hpa] at h
      exact Or.inl (by rw [List.find?_cons_of_pos _ hpa]; exact h)
    | false =>
      rw [List.cons_append, List.find?_cons_of_neg _ (by simp [hpa])] at h
      rcases ih h with h' | ⟨hall, h'⟩
      · exact Or.inl (by rw [List.find?_cons_of_neg _ (by simp [hpa])]; exact h')
      · refine Or.inr ⟨?_, h'⟩
        intro y hy
        rcases List.mem_cons.mp hy with rfl | hy'
        · exact hpa
        · exact hall y hy'

/-- A hit of the static fast path belongs to some track's `statics`,
with every earlier offset of that same track rejected. -/
theorem find?_flatMap_statics (p : Int → Bool) :
    ∀ (infos : List LoopInformation) (x : Int),
      (infos.flatMap LoopInformation.statics).find? p = some x →
      p x = true ∧ ∃ li ∈ infos, ∃ s1 s2, li.statics = s1 ++ x :: s2 ∧
        ∀ y ∈ s1, p y = false := by
  intro infos
  induction infos with
  | nil =>
    intro x hx
    simp at hx
  | cons li infos ih =>
    intro x hx
    rw [List.flatMap_cons] at hx
    rcases find?_append_split p _ _ x hx with h | ⟨hall, h⟩
    · obtain ⟨hpx, s1, s2, hsplit, hs1⟩ := find?_split p _ x h
      exact ⟨hpx, li, by simp, s1, s2, hsplit, hs1⟩
    · obtain ⟨hpx, li', hli', hrest⟩ := ih x h
      exact ⟨hpx, li', by simp [hli'], hrest⟩

/-- The system predicate, for a nonempty system, is the conjunction of
the per-track predicates. -/
theorem sys_is_solution_iff (s : LoopInformationSystem) (n : Int)
    (hne : s.infos ≠ []) :
    s.is_solution n = true ↔ ∀ li ∈ s.infos, li.is_solution n = true := by
  simp [LoopInformationSystem.is_solution, List.all_eq_true, hne]

/-- A track is satisfied through a static offset or through a dynamic
congruence. -/
theorem li_is_solution_cases (li : LoopInformation) (n : Int) :
    li.is_solution n = true ↔
      n ∈ li.statics ∨ ∃ lc ∈ li.dynamics, lc.is_solution n = true := by
  simp [LoopInformation.is_solution, List.any_eq_true]

/-- **C2 (amended).** For every nonempty system of tracks satisfying
the invariants established by `LoopInformationSystem::create` (sorted
nonnegative static offsets, each static offset smaller than every
dynamic minimum of its track, representation-invariant dynamic
congruences), `solve` returns `Some` of the smallest integer satisfying
every track — all solutions are nonnegative under these invariants —
and `None` exactly when no integer satisfies every track. -/
theorem solve_least_simultaneous (s : LoopInformationSystem) (n m : Int)
    (hinv : SysInv s) :
    (s.solve = some n →
      s.is_solution n = true ∧ (s.is_solution m = true → n ≤ m)) ∧
    (s.solve = none → s.is_solution m = false) := by
  obtain ⟨hne, hliinv⟩ := hinv
  have hsolve : s.solve =
      match (s.infos.flatMap LoopInformation.statics).find?
          (fun k => s.is_solution k) with
      | some k => some k
      | none =>
        if !s.has_dynamic_solution then none
        else ((cartProd (s.infos.map LoopInformation.dynamics)).filterMap
          solve_lcs).min? := rfl
  cases hfind : (s.infos.flatMap LoopInformation.statics).find?
      (fun k => s.is_solution k) with
  | some k =>
    have hsk : s.solve = some k := by rw [hsolve, hfind]
    constructor
    · intro hsn
      rw [hsk] at hsn
      obtain rfl := Option.some_inj.mp hsn
      obtain ⟨hpk, li, hlimem, s1, s2, hsplit, hs1⟩ :=
        find?_flatMap_statics (fun u => s.is_solution u) s.infos k hfind
      have hk' : s.is_solution k = true := hpk
      refine ⟨hk', ?_⟩
      intro hm
      by_contra hlt
      push_neg at hlt
      have hlim : li.is_solution m = true :=
        (sys_is_solution_iff s m hne).mp hm li hlimem
      obtain ⟨hsorted, hnneg, hltdyn, hdyninv⟩ := hliinv li hlimem
      rcases (li_is_solution_cases li m).mp hlim with hmem | ⟨lc, hlcmem, hlcsol⟩
      · rw [hsplit] at hmem hsorted
        rcases List.mem_append.mp hmem with h1 | h2
        · have hfalse : s.is_solution m = false := hs1 m h1
          rw [hfalse] at hm
          exact absurd hm (by simp)
        · have hpair := List.pairwise_append.mp hsorted
          rcases List.mem_cons.mp h2 with rfl | h3
          · exact absurd hlt (lt_irrefl m)
          · have : k ≤ m := (List.pairwise_cons.mp hpair.2.1).1 m h3
            omega
      · have hkmem : k ∈ li.statics := by rw [hsplit]; simp
        have h1 : k < lc.minimum := hltdyn k hkmem lc hlcmem
        have h2 : lc.minimum ≤ m := ((is_solution_iff lc m).mp hlcsol).1
        omega
    · intro hnone
      rw [hsk] at hnone
      exact absurd hnone (by simp)
  | none =>
    have hallstat : ∀ y ∈ s.infos.flatMap LoopInformation.statics,
        s.is_solution y = false := by
      intro y hy
      have := List.find?_eq_none.mp hfind y hy
      simpa using this
    cases hdyn : s.has_dynamic_solution with
    | false =>
      have hsn : s.solve = none := by rw [hsolve, hfind, hdyn]; rfl
      refine ⟨?_, ?_⟩
      · intro h
        rw [hsn] at h
        exact absurd h (by simp)
      · intro _
        apply Bool.eq_false_iff.mpr
        intro hm
        have hex : ∃ li ∈ s.infos, li.dynamics = [] := by
          unfold LoopInformationSystem.has_dynamic_solution at hdyn
          have hie : s.infos.isEmpty = false := by
            cases hinfos : s.infos with
            | nil => exact absurd hinfos hne
            | cons a l => rfl
          rw [hie] at hdyn
          simp only [Bool.not_false, Bool.true_and] at hdyn
          have hnot : ¬ ∀ li ∈ s.infos,
              LoopInformation.has_dynamic_solution li = true := by
            intro hall
            rw [List.all_eq_true.mpr hall] at hdyn
            exact absurd hdyn (by simp)
          push_neg at hnot
          obtain ⟨li, hmem, hfa⟩ := hnot
          refine ⟨li, hmem, ?_⟩
          unfold LoopInformation.has_dynamic_solution at hfa
          simpa using hfa
        obtain ⟨li, hmem, hdempty⟩ := hex
        have hlim : li.is_solution m = true :=
          (sys_is_solution_iff s m hne).mp hm li hmem
        rcases (li_is_solution_cases li m).mp hlim with hmemstat | ⟨lc, hlcmem, -⟩
        · have hfalse : s.is_solution m = false :=
            hallstat m (List.mem_flatMap.mpr ⟨li, hmem, hmemstat⟩)
          rw [hfalse] at hm
          exact absurd hm (by simp)
        · rw [hdempty] at hlcmem
          exact absurd hlcmem (by simp)
    | true =>
      set L : List Int :=
        (cartProd (s.infos.map LoopInformation.dynamics)).filterMap solve_lcs
        with hL
      have hsn : s.solve = L.min? := by rw [hsolve, hfind, hdyn]; rfl
      have hdynsol : ∀ w : Int, s.is_solution w = true →
          ∀ li ∈ s.infos, ∃ lc ∈ li.dynamics, lc.is_solution w = true := by
        intro w hw li hmem
        have hliw : li.is_solution w = true :=
          (sys_is_solution_iff s w hne).mp hw li hmem
        rcases (li_is_solution_cases li w).mp hliw with hstat | hdy
        · have hfalse : s.is_solution w = false :=
            hallstat w (List.mem_flatMap.mpr ⟨li, hmem, hstat⟩)
          rw [hfalse] at hw
          exact absurd hw (by simp)
        · exact hdy
      have hcombo_inv : ∀ c ∈ cartProd (s.infos.map LoopInformation.dynamics),
          c ≠ [] ∧ ∀ lc ∈ c, LCInv lc := by
        intro c hc
        obtain ⟨hlen, hmem, -⟩ := combo_props s.infos c hc
        constructor
        · intro hcnil
          rw [hcnil] at hlen
          cases hinfos : s.infos with
          | nil => exact hne hinfos
          | cons a l =>
            rw [hinfos] at hlen
            simp at hlen
        · intro lc hlc
          obtain ⟨li, hli, hmem'⟩ := hmem lc hlc
          exact (hliinv li hli).2.2.2 lc hmem'
      have hLmem : ∀ v ∈ L, s.is_solution v = true := by
        intro v hv
        rw [hL] at hv
        obtain ⟨c, hcmem, hcsol⟩ := List.mem_filterMap.mp hv
        obtain ⟨hcne, hcinv⟩ := hcombo_inv c hcmem
        have hsat := ((solve_lcs_sound c hcne hcinv).2 v hcsol).1
        exact (sys_is_solution_iff s v hne).mpr
          ((combo_props s.infos c hcmem).2.2 v hsat)
      have hLbound : ∀ w : Int, s.is_solution w = true → ∃ v ∈ L, v ≤ w := by
        intro w hw
        obtain ⟨c, hcmem, hcall⟩ := exists_combo s.infos w (hdynsol w hw)
        obtain ⟨hcne, hcinv⟩ := hcombo_inv c hcmem
        cases hsl : solve_lcs c with
        | none => exact absurd hcall ((solve_lcs_sound c hcne hcinv).1 hsl w)
        | some v =>
          refine ⟨v, ?_, ((solve_lcs_sound c hcne hcinv).2 v hsl).2 w hcall⟩
          rw [hL]
          exact List.mem_filterMap.mpr ⟨c, hcmem, hsl⟩
      cases hmin : L.min? with
      | some v =>
        have hsv : s.solve = some v := by rw [hsn, hmin]
        obtain ⟨hvL, hvle⟩ := (int_min?_some L v).mp hmin
        constructor
        · intro hsome
          rw [hsv] at hsome
          obtain rfl := Option.some_inj.mp hsome
          refine ⟨hLmem _ hvL, ?_⟩
          intro hm
          obtain ⟨u, huL, hum⟩ := hLbound m hm
          exact le_trans (hvle u huL) hum
        · intro hnone
          rw [hsv] at hnone
          exact absurd hnone (by simp)
      | none =>
        have hLnil : L = [] := List.min?_eq_none_iff.mp hmin
        have hsnone : s.solve = none := by rw [hsn, hmin]
        refine ⟨?_, ?_⟩
        · intro h
          rw [hsnone] at h
          exact absurd h (by simp)
        · intro _
          apply Bool.eq_false_iff.mpr
          intro hm
          obtain ⟨u, huL, -⟩ := hLbound m hm
          rw [hLnil] at huL
          exact absurd huL (by simp)

/-- Witness for the amended C2 at a two-track system: one track with
static offset 1 and dynamic congruence `1 (mod 3)` from minimum 2, one
track with only the dynamic congruence `2 (mod 4)`; the theorem is
instantiated at `n = 10` and `m = 22`. -/
theorem solve_least_simultaneous_witness :
    SysInv ⟨[⟨[1], [⟨1, 3, 2⟩]⟩, ⟨[], [⟨2, 4, 0⟩]⟩]⟩ ∧
    ((LoopInformationSystem.solve ⟨[⟨[1], [⟨1, 3, 2⟩]⟩, ⟨[], [⟨2, 4, 0⟩]⟩]⟩
          = some 10 →
        LoopInformationSystem.is_solution
          ⟨[⟨[1], [⟨1, 3, 2⟩]⟩, ⟨[], [⟨2, 4, 0⟩]⟩]⟩ 10 = true ∧
        (LoopInformationSystem.is_solution
            ⟨[⟨[1], [⟨1, 3, 2⟩]⟩, ⟨[], [⟨2, 4, 0⟩]⟩]⟩ 22 = true →
          (10 : Int) ≤ 22)) ∧
      (LoopInformationSystem.solve ⟨[⟨[1], [⟨1, 3, 2⟩]⟩, ⟨[], [⟨2, 4, 0⟩]⟩]⟩
          = none →
        LoopInformationSystem.is_solution
          ⟨[⟨[1], [⟨1, 3, 2⟩]⟩, ⟨[], [⟨2, 4, 0⟩]⟩]⟩ 22 = false)) :=
  ⟨by unfold SysInv LIInv LCInv; decide,
    solve_least_simultaneous ⟨[⟨[1], [⟨1, 3, 2⟩]⟩, ⟨[], [⟨2, 4, 0⟩]⟩]⟩ 10 22
      (by unfold SysInv LIInv LCInv; decide)⟩

/-! ### Cycle acceleration refines naive iteration -/

theorem iterate_stable {α : Type} (f : α → α) (x : α) (a d : Nat)
    (h : f^[a] x = f^[a + d] x) : ∀ k : Nat, f^[a + k * d] x = f^[a] x := by
  intro k
  induction k with
  | zero => simp
  | succ j ih =>
    have e1 : a + (j + 1) * d = d + (a + j * d) := by ring
    rw [e1, Function.iterate_add_apply, ih, ← Function.iterate_add_apply,
      Nat.add_comm d a, ← h]

/-- Jumping whole multiples of the detected cycle length does not change
the state: if the state at step `prev_i` recurs at step `prev_i + d`,
it recurs at `prev_i + d + q * d` for every `q`. -/
theorem iterate_jump {α : Type} (f : α → α) (x : α) (prev_i d q : Nat)
    (h : f^[prev_i] x = f^[prev_i + d] x) :
    f^[(prev_i + d) + q * d] x = f^[prev_i + d] x := by
  have e : (prev_i + d) + q * d = prev_i + (q + 1) * d := by ring
  rw [e, iterate_stable f x prev_i d h (q + 1)]
  exact h

theorem lookupIndex_mem (p : Platform) :
    ∀ (cache : List (Platform × Nat)) (j : Nat),
      lookupIndex p cache = some j → (p, j) ∈ cache := by
  intro cache
  induction cache with
  | nil =>
    intro j h
    simp [lookupIndex] at h
  | cons qj rest ih =>
    intro j h
    obtain ⟨q, j'⟩ := qj
    by_cases hq : q = p
    · simp only [lookupIndex, if_pos hq] at h
      obtain rfl := Option.some_inj.mp h
      subst hq
      exact List.mem_cons_self _ _
    · simp only [lookupIndex, if_neg hq] at h
      exact List.mem_cons_of_mem _ (ih j h)

/-- Main loop invariant of `Platform::cycle`: as long as `current` is
the `i`-fold spin of the initial state, every cache entry `(q, j)`
records the `j`-fold spin of the initial state, `i ≤ n`, and fuel
exceeds the remaining step count, the loop computes the `n`-fold
spin. -/
theorem cycleGo_correct (p0 : Platform) (n : Nat) :
    ∀ (fuel i : Nat) (cache : List (Platform × Nat)) (current : Platform),
      current = spinStep^[i] p0 → i ≤ n → n - i < fuel →
      (∀ q j, (q, j) ∈ cache → q = spinStep^[j] p0) →
      cycleGo n fuel i cache current = some (spinStep^[n] p0) := by
  intro fuel
  induction fuel with
  | zero =>
    intro i cache current _ _ hfuel _
    omega
  | succ f ih =>
    intro i cache current hcur hile hfuel hcache
    have hstep : ∀ (i : Nat) (cache : List (Platform × Nat)) (current : Platform),
        cycleGo n (f + 1) i cache current
          = if i = n then some current
            else
              match lookupIndex (spinStep current) cache with
              | some prev_i =>
                cycleGo n f ((i + 1) + ((n - (i + 1)) / ((i + 1) - prev_i))
                  * ((i + 1) - prev_i)) cache (spinStep current)
              | none => cycleGo n f (i + 1)
                  ((spinStep current, i + 1) :: cache) (spinStep current) :=
      fun _ _ _ => rfl
    by_cases hin : i = n
    · subst hin
      rw [hstep, if_pos rfl, hcur]
    · have hnext : spinStep current = spinStep^[i + 1] p0 := by
        rw [hcur]
        exact (Function.iterate_succ_apply' spinStep i p0).symm
      cases hlook : lookupIndex (spinStep current) cache with
      | some prev_i =>
        rw [hstep, if_neg hin, hlook]
        have hmem := lookupIndex_mem _ cache prev_i hlook
        have hprev : spinStep current = spinStep^[prev_i] p0 := hcache _ _ hmem
        have hstable : spinStep^[(i + 1) + ((n - (i + 1)) / ((i + 1) - prev_i))
            * ((i + 1) - prev_i)] p0 = spinStep^[i + 1] p0 := by
          by_cases hple : prev_i ≤ i + 1
          · obtain ⟨d, hd⟩ : ∃ d, i + 1 = prev_i + d := ⟨i + 1 - prev_i, by omega⟩
            have hdsub : (i + 1) - prev_i = d := by omega
            have hper : spinStep^[prev_i] p0 = spinStep^[prev_i + d] p0 := by
              rw [← hd, ← hprev]
              exact hnext
            rw [hdsub, hd]
            exact iterate_jump spinStep p0 prev_i d _ hper
          · have hd0 : (i + 1) - prev_i = 0 := by omega
            simp [hd0]
        have hKle : ((n - (i + 1)) / ((i + 1) - prev_i)) * ((i + 1) - prev_i)
            ≤ n - (i + 1) := Nat.div_mul_le_self _ _
        show cycleGo n f ((i + 1) + ((n - (i + 1)) / ((i + 1) - prev_i))
          * ((i + 1) - prev_i)) cache (spinStep current) = some (spinStep^[n] p0)
        generalize hKK : ((n - (i + 1)) / ((i + 1) - prev_i))
          * ((i + 1) - prev_i) = K at hstable hKle ⊢
        apply ih
        · rw [hstable]
          exact hnext
        · omega
        · omega
        · exact hcache
      | none =>
        rw [hstep, if_neg hin, hlook]
        apply ih
        · exact hnext
        · omega
        · omega
        · intro q j hqj
          rcases List.mem_cons.mp hqj with heq | hmem'
          · rw [Prod.ext_iff] at heq
            obtain ⟨h1, h2⟩ := heq
            dsimp only at h1 h2
            rw [h1, h2]
            exact hnext
          · exact hcache q j hmem'

/-- **C1.** `Platform::cycle`, with its state memoization and jump-ahead
by whole multiples of the detected cycle length, returns exactly the
state obtained by naively applying the four-tilt spin `n` times; in
particular `cycle 0` returns the initial state untouched. -/
theorem cycle_refines_naive (p : Platform) (n : Nat) :
    p.cycle n = some (spinStep^[n] p) ∧ p.cycle 0 = some p := by
  constructor
  · exact cycleGo_correct p n (n + 1) 0 [] p (by simp) (by omega) (by omega)
      (by simp)
  · have h := cycleGo_correct p 0 1 0 [] p (by simp) (by omega) (by omega)
      (by simp)
    simpa using h

/-- **C9.** `Platform::cycle` terminates for every initial platform and
every target step count: the loop needs at most `n + 1` iterations
because the counter strictly increases up to `n`, so with that fuel it
always produces a result. -/
theorem cycle_terminates (p : Platform) (n : Nat) :
    (p.cycle n).isSome = true := by
  rw [show p.cycle n = some (spinStep^[n] p) from
    cycleGo_correct p n (n + 1) 0 [] p (by simp) (by omega) (by omega) (by simp)]
  rfl

/-- **C7 (code bug).**  `find_solution`'s arithmetic is not checked: on
the congruence `1 (mod 2^63 - 1)` with minimum `2^63 - 2`, the
release-mode `i64` loop silently wraps and returns `2^63 - 2`, which is
not a solution at all, while the smallest true solution `2^63` exists
(the source marks the missing safeguard with a TODO comment). -/
theorem find_solution_wraps_on_overflow :
    LinearCongruence.findSolutionI64 ⟨1, 9223372036854775807, 9223372036854775806⟩ 10
      = some 9223372036854775806 ∧
    LinearCongruence.is_solution ⟨1, 9223372036854775807, 9223372036854775806⟩
      9223372036854775806 = false ∧
    LinearCongruence.is_solution ⟨1, 9223372036854775807, 9223372036854775806⟩
      9223372036854775808 = true :=
  ⟨by decide, by decide, by decide⟩

/-! ### Tilt preserves shape, obstacles and rock count -/

theorem getD_set_self {α : Type} (l : List α) (i : Nat) (a d : α)
    (h : i < l.length) : (l.set i a).getD i d = a := by
  rw [List.getD_eq_getElem?_getD, List.getElem?_set_self h]
  rfl

theorem getD_set_ne {α : Type} (l : List α) (i j : Nat) (a d : α) (h : i ≠ j) :
    (l.set i a).getD j d = l.getD j d := by
  rw [List.getD_eq_getElem?_getD, List.getElem?_set_ne h,
    ← List.getD_eq_getElem?_getD]

theorem tileAt_setTile_ne (g : List (List Tile)) (x y : Nat) (t : Tile)
    (a b : Nat) (h : ¬(a = x ∧ b = y)) :
    tileAt (setTile g x y t) a b = tileAt g a b := by
  unfold tileAt setTile
  by_cases hb : b = y
  · subst hb
    have hax : a ≠ x := fun hax => h ⟨hax, rfl⟩
    by_cases hylen : b < g.length
    · rw [getD_set_self _ _ _ _ hylen, getD_set_ne _ _ _ _ _ (fun e => hax e.symm)]
    · rw [List.set_eq_of_length_le (by omega)]
  · rw [getD_set_ne _ _ _ _ _ (fun e => hb e.symm)]

theorem tileAt_setTile_self (g : List (List Tile)) (x y : Nat) (t : Tile)
    (hx : x < (g.getD y []).length) (hy : y < g.length) :
    tileAt (setTile g x y t) x y = t := by
  unfold tileAt setTile
  rw [getD_set_self _ _ _ _ hy, getD_set_self _ _ _ _ hx]

theorem Rect_getD (g : List (List Tile)) (sx sy : Nat) (h : Rect g sx sy)
    (y : Nat) (hy : y < sy) : (g.getD y []).length = sx := by
  obtain ⟨hlen, hrows⟩ := h
  have hylen : y < g.length := by omega
  rw [List.getD_eq_getElem?_getD, List.getElem?_eq_getElem hylen]
  exact hrows _ (List.getElem_mem hylen)

theorem Rect_setTile (g : List (List Tile)) (sx sy x y : Nat) (t : Tile)
    (h : Rect g sx sy) : Rect (setTile g x y t) sx sy := by
  obtain ⟨hlen, hrows⟩ := h
  constructor
  · rw [setTile, List.length_set]
    exact hlen
  · intro row hrow
    by_cases hylen : y < g.length
    · rcases List.mem_or_eq_of_mem_set hrow with hmem | rfl
      · exact hrows row hmem
      · rw [List.length_set]
        exact Rect_getD g sx sy ⟨hlen, hrows⟩ y (by omega)
    · rw [setTile, List.set_eq_of_length_le (by omega)] at hrow
      exact hrows row hrow

theorem rockRow_set (row : List Tile) (x : Nat) (t : Tile)
    (h : x < row.length) :
    rockRow (row.set x t) + cntRock (row.getD x Tile.Empty)
      = rockRow row + cntRock t := by
  induction row generalizing x with
  | nil => simp at h
  | cons a l ih =>
    cases x with
    | zero =>
      simp only [List.set_cons_zero, List.getD_cons_zero, rockRow,
        List.map_cons, List.sum_cons]
      omega
    | succ x' =>
      have hx' : x' < l.length := by simpa using h
      have := ih x' hx'
      simp only [List.set_cons_succ, List.getD_cons_succ, rockRow,
        List.map_cons, List.sum_cons] at this ⊢
      omega

theorem rockCount_setTile (g : List (List Tile)) (x y : Nat) (t : Tile)
    (hy : y < g.length) (hx : x < (g.getD y []).length) :
    rockCount (setTile g x y t) + cntRock (tileAt g x y)
      = rockCount g + cntRock t := by
  induction g generalizing y with
  | nil => simp at hy
  | cons row g ih =>
    cases y with
    | zero =>
      simp only [setTile, tileAt, List.getD_cons_zero, List.set_cons_zero,
        rockCount, List.map_cons, List.sum_cons]
      have := rockRow_set row x t (by simpa using hx)
      omega
    | succ y' =>
      have hy' : y' < g.length := by simpa using hy
      have hx' : x < (g.getD y' []).length := by simpa using hx
      have := ih y' hy' hx'
      simp only [setTile, tileAt, List.getD_cons_succ, List.set_cons_succ,
        rockCount, List.map_cons, List.sum_cons] at this ⊢
      omega

/-- The sliding loop either stays put or lands on an in-bounds `Empty`
cell of the unmodified grid. -/
theorem slideGo_spec (g : List (List Tile)) (sx sy : Nat) (dx dy : Int) :
    ∀ (fuel : Nat) (tx ty : Nat),
      slideGo g sx sy dx dy fuel tx ty = (tx, ty) ∨
      ((slideGo g sx sy dx dy fuel tx ty).1 < sx ∧
        (slideGo g sx sy dx dy fuel tx ty).2 < sy ∧
        tileAt g (slideGo g sx sy dx dy fuel tx ty).1
          (slideGo g sx sy dx dy fuel tx ty).2 = Tile.Empty) := by
  intro fuel
  induction fuel with
  | zero =>
    intro tx ty
    exact Or.inl rfl
  | succ f ih =>
    intro tx ty
    have hstep : slideGo g sx sy dx dy (f + 1) tx ty
        = if ((tx : Int) + dx) < 0 ∨ (sx : Int) ≤ ((tx : Int) + dx)
              ∨ ((ty : Int) + dy) < 0 ∨ (sy : Int) ≤ ((ty : Int) + dy)
          then (tx, ty)
          else if tileAt g ((tx : Int) + dx).toNat ((ty : Int) + dy).toNat
              ≠ Tile.Empty then (tx, ty)
          else slideGo g sx sy dx dy f ((tx : Int) + dx).toNat
            ((ty : Int) + dy).toNat := rfl
    rw [hstep]
    by_cases h1 : ((tx : Int) + dx) < 0 ∨ (sx : Int) ≤ ((tx : Int) + dx)
        ∨ ((ty : Int) + dy) < 0 ∨ (sy : Int) ≤ ((ty : Int) + dy)
    · rw [if_pos h1]
      exact Or.inl rfl
    · rw [if_neg h1]
      by_cases h2 : tileAt g ((tx : Int) + dx).toNat ((ty : Int) + dy).toNat
          ≠ Tile.Empty
      · rw [if_pos h2]
        exact Or.inl rfl
      · rw [if_neg h2]
        rcases ih ((tx : Int) + dx).toNat ((ty : Int) + dy).toNat with heq | hgood
        · rw [heq]
          push_neg at h1
          obtain ⟨ha1, ha2, ha3, ha4⟩ := h1
          exact Or.inr ⟨by omega, by omega, not_not.mp h2⟩
        · exact Or.inr hgood

/-- One `swap` call preserves the tilt invariants. -/
theorem doSwap_preserves (g0 : List (List Tile)) (sx sy : Nat)
    (g : List (List Tile)) (x y : Nat) (dx dy : Int)
    (hx : x < sx) (hy : y < sy) (hP : TiltPreserved g0 g sx sy) :
    TiltPreserved g0 (doSwap sx sy g x y dx dy) sx sy := by
  obtain ⟨hr, hcount, hobs⟩ := hP
  have hmain : Rect (doSwap sx sy g x y dx dy) sx sy ∧
      rockCount (doSwap sx sy g x y dx dy) = rockCount g ∧
      ∀ u v : Nat, tileAt (doSwap sx sy g x y dx dy) u v = Tile.Obstacle
        ↔ tileAt g u v = Tile.Obstacle := by
    by_cases hrock : tileAt g x y = Tile.Rock
    case neg =>
      rw [show doSwap sx sy g x y dx dy = g from by
        simp only [doSwap, if_neg hrock]]
      exact ⟨hr, rfl, fun u v => Iff.rfl⟩
    case pos =>
      have hswap : doSwap sx sy g x y dx dy
          = if (slideGo g sx sy dx dy (sx + sy) x y).1 ≠ x
              ∨ (slideGo g sx sy dx dy (sx + sy) x y).2 ≠ y
            then setTile (setTile g x y Tile.Empty)
              (slideGo g sx sy dx dy (sx + sy) x y).1
              (slideGo g sx sy dx dy (sx + sy) x y).2 Tile.Rock
            else g := by
        simp only [doSwap, if_pos hrock]
      by_cases hmove : (slideGo g sx sy dx dy (sx + sy) x y).1 ≠ x
          ∨ (slideGo g sx sy dx dy (sx + sy) x y).2 ≠ y
      case neg =>
        rw [hswap, if_neg hmove]
        exact ⟨hr, rfl, fun u v => Iff.rfl⟩
      case pos =>
        rw [hswap, if_pos hmove]
        rcases slideGo_spec g sx sy dx dy (sx + sy) x y with heq | ⟨htx, hty, hempty⟩
        · rw [heq] at hmove
          exact absurd rfl (by tauto)
        · set T := slideGo g sx sy dx dy (sx + sy) x y with hT
          have hne : ¬(T.1 = x ∧ T.2 = y) := by tauto
          have hxlen : x < (g.getD y []).length := by
            rw [Rect_getD g sx sy hr y hy]
            exact hx
          have hylen : y < g.length := by
            rw [hr.1]
            exact hy
          have hr1 : Rect (setTile g x y Tile.Empty) sx sy :=
            Rect_setTile g sx sy x y Tile.Empty hr
          have hr2 : Rect (setTile (setTile g x y Tile.Empty) T.1 T.2 Tile.Rock)
              sx sy := Rect_setTile _ sx sy T.1 T.2 Tile.Rock hr1
          have hg1T : tileAt (setTile g x y Tile.Empty) T.1 T.2 = Tile.Empty := by
            rw [tileAt_setTile_ne g x y Tile.Empty T.1 T.2 hne]
            exact hempty
          have hxlen1 : T.1 < ((setTile g x y Tile.Empty).getD T.2 []).length := by
            rw [Rect_getD _ sx sy hr1 T.2 hty]
            exact htx
          have hylen1 : T.2 < (setTile g x y Tile.Empty).length := by
            rw [hr1.1]
            exact hty
          have hc1 := rockCount_setTile g x y Tile.Empty hylen hxlen
          have hc2 := rockCount_setTile (setTile g x y Tile.Empty) T.1 T.2
            Tile.Rock hylen1 hxlen1
          rw [hg1T] at hc2
          rw [hrock] at hc1
          refine ⟨hr2, ?_, ?_⟩
          · simp only [cntRock] at hc1 hc2
            simp at hc1 hc2
            omega
          · intro u v
            by_cases hab1 : u = T.1 ∧ v = T.2
            · obtain ⟨rfl, rfl⟩ := hab1
              rw [tileAt_setTile_self _ T.1 T.2 Tile.Rock hxlen1 hylen1, hempty]
              simp
            · rw [tileAt_setTile_ne _ T.1 T.2 Tile.Rock u v hab1]
              by_cases hab2 : u = x ∧ v = y
              · obtain ⟨rfl, rfl⟩ := hab2
                rw [tileAt_setTile_self g u v Tile.Empty hxlen hylen, hrock]
                simp
              · rw [tileAt_setTile_ne g x y Tile.Empty u v hab2]
  exact ⟨hmain.1, by rw [hmain.2.1, hcount],
    fun u v => (hmain.2.2 u v).trans (hobs u v)⟩

theorem foldl_preserve {β : Type} (P : List (List Tile) → Prop)
    (f : List (List Tile) → β → List (List Tile)) (l : List β)
    (hstep : ∀ g b, b ∈ l → P g → P (f g b)) :
    ∀ g, P g → P (l.foldl f g) := by
  induction l with
  | nil =>
    intro g hg
    exact hg
  | cons b l ih =>
    intro g hg
    rw [List.foldl_cons]
    exact ih (fun g' b' hb' hg' => hstep g' b' (by simp [hb']) hg') (f g b)
      (hstep g b (by simp) hg)

/-- A full sweep in any of the four directions preserves the tilt
invariants. -/
theorem tilt_preserved (p : Platform) (d : Direction)
    (hsx : 0 < p.size_x) (hsy : 0 < p.size_y)
    (hrect : ∀ row ∈ p.grid, row.length = p.size_x) :
    TiltPreserved p.grid (p.tilt d).grid p.size_x p.size_y := by
  have hP0 : TiltPreserved p.grid p.grid p.size_x p.size_y :=
    ⟨⟨rfl, hrect⟩, rfl, fun u v => Iff.rfl⟩
  have hinner_x : ∀ (dx dy : Int) (y : Nat), y < p.size_y →
      ∀ g, TiltPreserved p.grid g p.size_x p.size_y →
      TiltPreserved p.grid
        ((List.range p.size_x).foldl
          (fun g x => doSwap p.size_x p.size_y g x y dx dy) g)
        p.size_x p.size_y := by
    intro dx dy y hy g hg
    exact foldl_preserve (fun g => TiltPreserved p.grid g p.size_x p.size_y) _ _
      (fun g' x hx hg' =>
        doSwap_preserves p.grid p.size_x p.size_y g' x y dx dy
          (List.mem_range.mp hx) hy hg') g hg
  have hinner_y : ∀ (dx dy : Int) (x : Nat), x < p.size_x →
      ∀ g, TiltPreserved p.grid g p.size_x p.size_y →
      TiltPreserved p.grid
        ((List.range p.size_y).foldl
          (fun g y => doSwap p.size_x p.size_y g x y dx dy) g)
        p.size_x p.size_y := by
    intro dx dy x hx g hg
    exact foldl_preserve (fun g => TiltPreserved p.grid g p.size_x p.size_y) _ _
      (fun g' y hy hg' =>
        doSwap_preserves p.grid p.size_x p.size_y g' x y dx dy
          hx (List.mem_range.mp hy) hg') g hg
  cases d with
  | North =>
    show TiltPreserved p.grid
      ((List.range' 1 (p.size_y - 1)).foldl
        (fun g y => (List.range p.size_x).foldl
          (fun g x => doSwap p.size_x p.size_y g x y 0 (-1)) g) p.grid)
      p.size_x p.size_y
    refine foldl_preserve (fun g => TiltPreserved p.grid g p.size_x p.size_y) _ _
      (fun g y hy hg => ?_) p.grid hP0
    have hylt : y < p.size_y := by
      have := (List.mem_range'_1.mp hy).2
      omega
    exact hinner_x 0 (-1) y hylt g hg
  | East =>
    show TiltPreserved p.grid
      (((List.range (p.size_x - 1)).reverse).foldl
        (fun g x => (List.range p.size_y).foldl
          (fun g y => doSwap p.size_x p.size_y g x y 1 0) g) p.grid)
      p.size_x p.size_y
    refine foldl_preserve (fun g => TiltPreserved p.grid g p.size_x p.size_y) _ _
      (fun g x hx hg => ?_) p.grid hP0
    have hxlt : x < p.size_x := by
      have := List.mem_range.mp (List.mem_reverse.mp hx)
      omega
    exact hinner_y 1 0 x hxlt g hg
  | South =>
    show TiltPreserved p.grid
      (((List.range (p.size_y - 1)).reverse).foldl
        (fun g y => (List.range p.size_x).foldl
          (fun g x => doSwap p.size_x p.size_y g x y 0 1) g) p.grid)
      p.size_x p.size_y
    refine foldl_preserve (fun g => TiltPreserved p.grid g p.size_x p.size_y) _ _
      (fun g y hy hg => ?_) p.grid hP0
    have hylt : y < p.size_y := by
      have := List.mem_range.mp (List.mem_reverse.mp hy)
      omega
    exact hinner_x 0 1 y hylt g hg
  | West =>
    show TiltPreserved p.grid
      ((List.range' 1 (p.size_x - 1)).foldl
        (fun g x => (List.range p.size_y).foldl
          (fun g y => doSwap p.size_x p.size_y g x y (-1) 0) g) p.grid)
      p.size_x p.size_y
    refine foldl_preserve (fun g => TiltPreserved p.grid g p.size_x p.size_y) _ _
      (fun g x hx hg => ?_) p.grid hP0
    have hxlt : x < p.size_x := by
      have := (List.mem_range'_1.mp hx).2
      omega
    exact hinner_y (-1) 0 x hxlt g hg

/-- **C10.** For every (nonempty, rectangular) platform and every tilt
direction, `Platform::tilt` returns a grid of the same dimensions in
which every `Obstacle` sits exactly where it was and the total number
of `Rock` tiles is unchanged. -/
theorem tilt_preserves_obstacles_and_rocks (p : Platform) (d : Direction)
    (a b : Nat) (hsx : 0 < p.size_x) (hsy : 0 < p.size_y)
    (hrect : ∀ row ∈ p.grid, row.length = p.size_x) :
    (p.tilt d).size_y = p.size_y ∧
    (∀ row ∈ (p.tilt d).grid, row.length = p.size_x) ∧
    (tileAt (p.tilt d).grid a b = Tile.Obstacle
      ↔ tileAt p.grid a b = Tile.Obstacle) ∧
    rockCount (p.tilt d).grid = rockCount p.grid := by
  obtain ⟨⟨hlen, hrows⟩, hcount, hobs⟩ := tilt_preserved p d hsx hsy hrect
  exact ⟨hlen, hrows, hobs a b, hcount⟩

/-- Witness for C10: a 2 by 2 platform with one rock and one obstacle,
tilted North, inspected at cell `(0, 0)`. -/
theorem tilt_preserves_obstacles_and_rocks_witness :
    (0 < (Platform.mk [[Tile.Empty, Tile.Empty], [Tile.Rock, Tile.Obstacle]]).size_x ∧
      0 < (Platform.mk [[Tile.Empty, Tile.Empty], [Tile.Rock, Tile.Obstacle]]).size_y ∧
      (∀ row ∈ (Platform.mk [[Tile.Empty, Tile.Empty],
          [Tile.Rock, Tile.Obstacle]]).grid,
        row.length
          = (Platform.mk [[Tile.Empty, Tile.Empty],
              [Tile.Rock, Tile.Obstacle]]).size_x)) ∧
    (((Platform.mk [[Tile.Empty, Tile.Empty],
        [Tile.Rock, Tile.Obstacle]]).tilt Direction.North).size_y
        = (Platform.mk [[Tile.Empty, Tile.Empty],
            [Tile.Rock, Tile.Obstacle]]).size_y ∧
      (∀ row ∈ ((Platform.mk [[Tile.Empty, Tile.Empty],
          [Tile.Rock, Tile.Obstacle]]).tilt Direction.North).grid,
        row.length
          = (Platform.mk [[Tile.Empty, Tile.Empty],
              [Tile.Rock, Tile.Obstacle]]).size_x) ∧
      (tileAt ((Platform.mk [[Tile.Empty, Tile.Empty],
            [Tile.Rock, Tile.Obstacle]]).tilt Direction.North).grid 0 0
          = Tile.Obstacle
        ↔ tileAt (Platform.mk [[Tile.Empty, Tile.Empty],
            [Tile.Rock, Tile.Obstacle]]).grid 0 0 = Tile.Obstacle) ∧
      rockCount ((Platform.mk [[Tile.Empty, Tile.Empty],
          [Tile.Rock, Tile.Obstacle]]).tilt Direction.North).grid
        = rockCount (Platform.mk [[Tile.Empty, Tile.Empty],
            [Tile.Rock, Tile.Obstacle]]).grid) :=
  ⟨⟨by decide, by decide, by decide⟩,
    tilt_preserves_obstacles_and_rocks
      (Platform.mk [[Tile.Empty, Tile.Empty], [Tile.Rock, Tile.Obstacle]])
      Direction.North 0 0 (by decide) (by decide) (by decide)⟩
